import Mathlib

/-!
Verification of the combinations library (`Combinations.h`).

The C++ header defines four components in namespace `combinations`:

* `Counter`       : memoized Pascal-recurrence computation of C(n,m) over
                    `size_t`, with an unsigned-overflow check;
* `Generator`     : recursive depth-first materialization of all m-subsets;
* `Enumerator`    : explicit-stack step enumerator producing one subset per
                    `next()` call;
* `Lexor`         : direct construction of the rank-i subset in
                    lexicographic order.

Embedding conventions:

* `size_t` values are `Nat`s understood modulo `WORD = 2 ^ 64`; the C++
  subtraction `a - b` on `size_t` is `wsub a b`, and the wrapping addition
  is `(a + b) % WORD`.
* The C++ recursions and loops have no fuel; here every recursion is
  indexed by an explicit fuel argument so that all definitions are
  structurally recursive and kernel-executable.  Exhausting fuel yields the
  distinguished error `Err.fuel`, and the theorems below establish concrete
  fuel bounds past which the fuel never runs out, so the fuel is invisible
  on the C++-reachable domain.
* Undefined behaviour (reading `std::vector` out of bounds, `pop_back` on
  an empty vector) is modeled as the error `Err.oob`.
* `throw std::overflow_error` is modeled as the error `Err.overflow`.
* `assert` statements are no-ops in release builds and are modeled as
  no-ops.
* The `unordered_map` memo of `Counter` is modeled as an association list
  threaded through the computation; insertion conses a fresh entry.
-/

set_option maxHeartbeats 1600000

/-- WORD is `2 ^ 64`, one past the largest representable `size_t` value. -/
def WORD : Nat := 2 ^ 64

/-- Subtraction with `size_t` semantics for arguments below `WORD`. -/
def wsub (a b : Nat) : Nat := if b ≤ a then a - b else a + WORD - b

/-- Error outcomes of the embedded code: `overflow` models
`throw std::overflow_error`, `oob` models undefined behaviour on an
out-of-bounds vector access, and `fuel` marks exhaustion of the embedding's
fuel (never reachable on the C++-reachable domain, see the depth theorems). -/
inductive Err where
  | overflow
  | oob
  | fuel
deriving DecidableEq

/-- Memo table of `Counter`: an association list from (n, normalized m)
pairs to counts, modeling the `unordered_map`. -/
abbrev Memo : Type := List ((Nat × Nat) × Nat)

/-- Lookup in the memo, modeling `unordered_map::find`. -/
def findCount : Memo → Nat → Nat → Option Nat
  | [], _, _ => none
  | ((a, b), v) :: rest, n, m =>
    if a = n ∧ b = m then some v else findCount rest n m

/-- Embedding of `Counter::countRec`.  The first argument is fuel (the C++
function recurses without bound); the memo is threaded explicitly.  The
body mirrors the source line by line: normalize `m` to
`min m (n - m)` in `size_t` arithmetic, special-case `m = 0` and `m = 1`,
otherwise consult the memo, recurse with `n - 1`, add with wraparound,
detect unsigned overflow by comparing the wrapped sum with the bitwise or
of the addends, memoize and return. -/
def countRecF : Nat → Memo → Nat → Nat → Except Err (Nat × Memo)
  | 0, _, _, _ => .error .fuel
  | fuel + 1, memo, n, m =>
    let m1 := min m (wsub n m)
    if m1 = 0 then .ok (1, memo)
    else if m1 = 1 then .ok (n, memo)
    else
      match findCount memo n m1 with
      | some v => .ok (v, memo)
      | none =>
        match countRecF fuel memo (wsub n 1) m1 with
        | .error e => .error e
        | .ok (cnt0, memo1) =>
          match countRecF fuel memo1 (wsub n 1) (m1 - 1) with
          | .error e => .error e
          | .ok (cnt1, memo2) =>
            let cnt := (cnt0 + cnt1) % WORD
            if cnt < (cnt0 ||| cnt1) then .error .overflow
            else .ok (cnt, ((n, m1), cnt) :: memo2)

/-- Embedding of `Counter::countRec` with enough fuel for every run that
the C++ can perform over `size_t` arguments; the depth theorems below show
the fuel is irrelevant as long as it exceeds `n`. -/
def countRec (memo : Memo) (n m : Nat) : Except Err (Nat × Memo) :=
  countRecF (3 * WORD) memo n m

/-- Embedding of `Counter().count(n, m)` on a freshly constructed
`Counter` (as used by `Generator::generate` and the CLI driver), keeping
only the returned value. -/
def countFresh (n m : Nat) : Except Err Nat :=
  (countRec [] n m).map (fun p => p.1)

/-- Invariant of the memo table: every stored entry is a correct binomial
coefficient that fits in a word. -/
def GoodMemo (memo : Memo) : Prop :=
  ∀ a b v, findCount memo a b = some v → v = Nat.choose a b ∧ v < WORD

-- Basic facts about WORD and wsub.

theorem one_lt_WORD : 1 < WORD := by norm_num [WORD]

theorem four_le_WORD : 4 ≤ WORD := by norm_num [WORD]

theorem wsub_of_le {a b : Nat} (h : b ≤ a) : wsub a b = a - b := by
  simp [wsub, h]

theorem wsub_zero_one : wsub 0 1 = WORD - 1 := by
  simp [wsub]

-- Bitwise-or bounds used by the overflow check.

theorem le_or_left (a : Nat) : ∀ b : Nat, a ≤ a ||| b := by
  induction a using Nat.strong_induction_on with
  | _ a ih =>
    intro b
    rcases Nat.eq_zero_or_pos a with ha | ha
    · simp [ha]
    · have hdiv : a / 2 < a := Nat.div_lt_self ha (by omega)
      have h1 : a / 2 ≤ (a ||| b) / 2 := by
        rw [Nat.or_div_two]
        exact ih (a / 2) hdiv (b / 2)
      have h2 : a % 2 ≤ (a ||| b) % 2 := by
        rcases Nat.mod_two_eq_zero_or_one a with h | h
        · simp [h]
        · have : (a ||| b) % 2 = 1 := Nat.or_mod_two_eq_one.mpr (Or.inl h)
          omega
      have ha2 : 2 * (a / 2) + a % 2 = a := Nat.div_add_mod a 2
      have hb2 : 2 * ((a ||| b) / 2) + (a ||| b) % 2 = a ||| b :=
        Nat.div_add_mod (a ||| b) 2
      omega

theorem or_le_add (a : Nat) : ∀ b : Nat, a ||| b ≤ a + b := by
  induction a using Nat.strong_induction_on with
  | _ a ih =>
    intro b
    rcases Nat.eq_zero_or_pos a with ha | ha
    · simp [ha]
    · have hdiv : a / 2 < a := Nat.div_lt_self ha (by omega)
      have h1 : (a ||| b) / 2 ≤ a / 2 + b / 2 := by
        rw [Nat.or_div_two]
        exact ih (a / 2) hdiv (b / 2)
      have h2 : (a ||| b) % 2 ≤ a % 2 + b % 2 := by
        rcases Nat.mod_two_eq_zero_or_one (a ||| b) with h | h
        · omega
        · rcases Nat.or_mod_two_eq_one.mp h with h3 | h3 <;> omega
      have ha2 : 2 * (a / 2) + a % 2 = a := Nat.div_add_mod a 2
      have hb2 : 2 * (b / 2) + b % 2 = b := Nat.div_add_mod b 2
      have hc2 : 2 * ((a ||| b) / 2) + (a ||| b) % 2 = a ||| b :=
        Nat.div_add_mod (a ||| b) 2
      omega

-- GoodMemo preservation.

theorem goodMemo_nil : GoodMemo [] := by
  intro a b v h
  simp [findCount] at h

theorem goodMemo_cons {memo : Memo} {n m v : Nat} (hg : GoodMemo memo)
    (hv : v = Nat.choose n m) (hlt : v < WORD) :
    GoodMemo (((n, m), v) :: memo) := by
  intro a b w h
  simp only [findCount] at h
  by_cases hab : n = a ∧ m = b
  · rw [if_pos hab] at h
    obtain ⟨h1, h2⟩ := hab
    cases h
    exact ⟨by rw [hv, h1, h2], hlt⟩
  · rw [if_neg hab] at h
    exact hg a b w h

-- Normalization of m in countRec.

theorem choose_min_norm {n m : Nat} (h : m ≤ n) :
    Nat.choose n (min m (n - m)) = Nat.choose n m := by
  rcases Nat.le_total m (n - m) with h1 | h1
  · rw [Nat.min_eq_left h1]
  · rw [Nat.min_eq_right h1, Nat.choose_symm h]

/-- Main specification of the embedded `Counter::countRec`: given a good
memo, a valid pair `m ≤ n < WORD` and fuel exceeding `n`, the call returns
exactly the binomial coefficient when it is representable and raises the
overflow error exactly when it is not. -/
theorem countRecF_spec (fuel : Nat) :
    ∀ n m memo, GoodMemo memo → m ≤ n → n < WORD → n + 1 ≤ fuel →
      (Nat.choose n m < WORD →
        ∃ memo2, countRecF fuel memo n m = .ok (Nat.choose n m, memo2) ∧
          GoodMemo memo2) ∧
      (WORD ≤ Nat.choose n m → countRecF fuel memo n m = .error .overflow) := by
  induction fuel with
  | zero => intro n m memo _ _ _ hf; omega
  | succ f ih =>
    intro n m memo hg hmn hnW _hf
    have hw : wsub n m = n - m := wsub_of_le hmn
    have hnorm : Nat.choose n (min m (n - m)) = Nat.choose n m := choose_min_norm hmn
    simp only [countRecF, hw]
    by_cases h0 : min m (n - m) = 0
    · rw [if_pos h0]
      rw [h0, Nat.choose_zero_right] at hnorm
      constructor
      · intro _
        exact ⟨memo, by rw [← hnorm], hg⟩
      · intro hbig
        rw [← hnorm] at hbig
        exact absurd hbig (by have := one_lt_WORD; omega)
    · rw [if_neg h0]
      by_cases h1 : min m (n - m) = 1
      · rw [if_pos h1]
        rw [h1, Nat.choose_one_right] at hnorm
        constructor
        · intro _
          exact ⟨memo, by rw [← hnorm], hg⟩
        · intro hbig
          rw [← hnorm] at hbig
          omega
      · rw [if_neg h1]
        -- here the normalized m is at least 2
        have hm1 : 2 ≤ min m (n - m) := by omega
        set m1 := min m (n - m) with hm1def
        have hm1m : m1 ≤ m := Nat.min_le_left _ _
        have hm1nm : m1 ≤ n - m := Nat.min_le_right _ _
        have hn4 : 4 ≤ n := by omega
        have hw1 : wsub n 1 = n - 1 := wsub_of_le (by omega)
        have hm1n1 : m1 ≤ n - 1 := by omega
        have hpascal : Nat.choose n m1 =
            Nat.choose (n - 1) (m1 - 1) + Nat.choose (n - 1) m1 := by
          have := Nat.choose_succ_succ' (n - 1) (m1 - 1)
          have e1 : n - 1 + 1 = n := by omega
          have e2 : m1 - 1 + 1 = m1 := by omega
          rw [e1, e2] at this
          exact this
        cases hfind : findCount memo n m1 with
        | some v =>
          obtain ⟨hv, hvW⟩ := hg n m1 v hfind
          dsimp only
          constructor
          · intro _
            exact ⟨memo, by rw [← hnorm, ← hv], hg⟩
          · intro hbig
            rw [← hnorm, ← hv] at hbig
            omega
        | none =>
          dsimp only
          rw [hw1]
          have ih0 := ih (n - 1) m1 memo hg hm1n1 (by omega) (by omega)
          by_cases hc0 : Nat.choose (n - 1) m1 < WORD
          · obtain ⟨memo1, heq0, hg1⟩ := ih0.1 hc0
            rw [heq0]
            dsimp only
            have ih1 := ih (n - 1) (m1 - 1) memo1 hg1 (by omega) (by omega)
              (by omega)
            by_cases hc1 : Nat.choose (n - 1) (m1 - 1) < WORD
            · obtain ⟨memo2, heq1, hg2⟩ := ih1.1 hc1
              rw [heq1]
              dsimp only
              have hsum : Nat.choose (n - 1) m1 + Nat.choose (n - 1) (m1 - 1) =
                  Nat.choose n m1 := by omega
              by_cases hbig : Nat.choose n m1 < WORD
              · have hmod : (Nat.choose (n - 1) m1 + Nat.choose (n - 1) (m1 - 1)) %
                    WORD = Nat.choose n m1 := by
                  rw [hsum]; exact Nat.mod_eq_of_lt hbig
                rw [hmod]
                have hcheck : ¬ Nat.choose n m1 <
                    (Nat.choose (n - 1) m1 ||| Nat.choose (n - 1) (m1 - 1)) := by
                  have := or_le_add (Nat.choose (n - 1) m1) (Nat.choose (n - 1) (m1 - 1))
                  omega
                rw [if_neg hcheck]
                constructor
                · intro _
                  refine ⟨((n, m1), Nat.choose n m1) :: memo2, by rw [← hnorm], ?_⟩
                  exact goodMemo_cons hg2 rfl hbig
                · intro hb
                  rw [← hnorm] at hb
                  omega
              · have hWle : WORD ≤ Nat.choose (n - 1) m1 + Nat.choose (n - 1) (m1 - 1) := by
                  omega
                have hlt2 : Nat.choose (n - 1) m1 + Nat.choose (n - 1) (m1 - 1) <
                    2 * WORD := by omega
                have hmod : (Nat.choose (n - 1) m1 + Nat.choose (n - 1) (m1 - 1)) %
                    WORD = Nat.choose (n - 1) m1 + Nat.choose (n - 1) (m1 - 1) - WORD := by
                  rw [Nat.mod_eq_sub_mod hWle]
                  exact Nat.mod_eq_of_lt (by omega)
                rw [hmod]
                have hcheck : Nat.choose (n - 1) m1 + Nat.choose (n - 1) (m1 - 1) - WORD <
                    (Nat.choose (n - 1) m1 ||| Nat.choose (n - 1) (m1 - 1)) := by
                  have := le_or_left (Nat.choose (n - 1) m1) (Nat.choose (n - 1) (m1 - 1))
                  omega
                rw [if_pos hcheck]
                constructor
                · intro hb
                  rw [← hnorm] at hb
                  omega
                · intro _
                  rfl
            · rw [ih1.2 (by omega)]
              dsimp only
              constructor
              · intro hb
                rw [← hnorm] at hb
                omega
              · intro _
                rfl
          · rw [ih0.2 (by omega)]
            dsimp only
            have hmono : Nat.choose (n - 1) m1 ≤ Nat.choose n m1 :=
              Nat.choose_le_choose m1 (by omega)
            constructor
            · intro hb
              rw [← hnorm] at hb
              omega
            · intro _
              rfl

/-- Fuel irrelevance on the valid domain `m ≤ n`: the depth of the C++
recursion is bounded by `n`, so any fuel exceeding `n` gives the same
result. -/
theorem countRecF_fuel_irrel : ∀ n fuel fuel2 m memo, m ≤ n →
    n + 1 ≤ fuel → n + 1 ≤ fuel2 →
    countRecF fuel memo n m = countRecF fuel2 memo n m := by
  intro n
  induction n using Nat.strong_induction_on with
  | _ n ih =>
    intro fuel fuel2 m memo hmn hf1 hf2
    obtain ⟨f, rfl⟩ : ∃ f, fuel = f + 1 := ⟨fuel - 1, by omega⟩
    obtain ⟨f2, rfl⟩ : ∃ g, fuel2 = g + 1 := ⟨fuel2 - 1, by omega⟩
    simp only [countRecF]
    rw [wsub_of_le hmn]
    by_cases h0 : min m (n - m) = 0
    · simp [h0]
    · by_cases h1 : min m (n - m) = 1
      · simp [h0, h1]
      · simp only [if_neg h0, if_neg h1]
        cases hfind : findCount memo n (min m (n - m)) with
        | some v => rfl
        | none =>
          dsimp only
          have hm1 : 2 ≤ min m (n - m) := by omega
          have hmle : min m (n - m) ≤ n - m := Nat.min_le_right _ _
          have hmlem : min m (n - m) ≤ m := Nat.min_le_left _ _
          have hn4 : 4 ≤ n := by omega
          have hw1 : wsub n 1 = n - 1 := wsub_of_le (by omega)
          rw [hw1]
          have hrec1 : countRecF f memo (n - 1) (min m (n - m)) =
              countRecF f2 memo (n - 1) (min m (n - m)) :=
            ih (n - 1) (by omega) f f2 _ memo (by omega) (by omega) (by omega)
          rw [hrec1]
          cases h2 : countRecF f2 memo (n - 1) (min m (n - m)) with
          | error e => rfl
          | ok p =>
            obtain ⟨cnt0, memo1⟩ := p
            dsimp only
            have hrec2 : countRecF f memo1 (n - 1) (min m (n - m) - 1) =
                countRecF f2 memo1 (n - 1) (min m (n - m) - 1) :=
              ih (n - 1) (by omega) f f2 _ memo1 (by omega) (by omega) (by omega)
            rw [hrec2]

/-- Symmetry of the normalization step: `count(n, m)` and `count(n, n-m)`
run the same computation. -/
theorem countRecF_symm (fuel : Nat) (memo : Memo) {n m : Nat} (h : m ≤ n) :
    countRecF fuel memo n m = countRecF fuel memo n (n - m) := by
  cases fuel with
  | zero => rfl
  | succ f =>
    simp only [countRecF, wsub_of_le h, wsub_of_le (Nat.sub_le n m),
      Nat.sub_sub_self h, Nat.min_comm (n - m) m]

/-- Shortcut for `m = 0`: one unit of fuel returns 1 with the memo
untouched, for every `n`. -/
theorem countRecF_m_zero (fuel : Nat) (memo : Memo) (n : Nat) (h : 0 < fuel) :
    countRecF fuel memo n 0 = .ok (1, memo) := by
  obtain ⟨f, rfl⟩ : ∃ f, fuel = f + 1 := ⟨fuel - 1, by omega⟩
  simp [countRecF]

theorem countRec_m_zero (memo : Memo) (n : Nat) :
    countRec memo n 0 = .ok (1, memo) := by
  have := four_le_WORD
  exact countRecF_m_zero (3 * WORD) memo n (by omega)

-- Overflow results used for the public count wrapper.

theorem countFresh_spec {n m : Nat} (h1 : m ≤ n) (h2 : n < WORD)
    (h3 : Nat.choose n m < WORD) : countFresh n m = .ok (Nat.choose n m) := by
  obtain ⟨memo2, heq, _⟩ :=
    (countRecF_spec (3 * WORD) n m [] goodMemo_nil h1 h2 (by omega)).1 h3
  unfold countFresh countRec
  rw [heq]
  rfl

theorem countFresh_overflow {n m : Nat} (h1 : m ≤ n) (h2 : n < WORD)
    (h3 : WORD ≤ Nat.choose n m) : countFresh n m = .error .overflow := by
  have heq := (countRecF_spec (3 * WORD) n m [] goodMemo_nil h1 h2 (by omega)).2 h3
  unfold countFresh countRec
  rw [heq]
  rfl

/-- Binomial coefficient at the top of the wrapped `size_t` range used by
the divergence analysis: `C(WORD - 1, 2)` does not fit in a word. -/
theorem choose_wordtop_two : WORD ≤ Nat.choose (WORD - 1) 2 := by
  rw [Nat.choose_two_right]
  norm_num [WORD]

/-- Querying `count(0, 2)` wraps `n - 1` around to `WORD - 1` and the
recursion then aborts with the overflow error. -/
theorem countRecF_zero_two (fuel : Nat) (h : WORD + 2 ≤ fuel) :
    countRecF fuel [] 0 2 = .error .overflow := by
  obtain ⟨f, rfl⟩ : ∃ f, fuel = f + 1 := ⟨fuel - 1, by omega⟩
  have hW := four_le_WORD
  simp only [countRecF]
  have hw : wsub 0 2 = WORD - 2 := by
    simp [wsub]
  rw [hw]
  have hmin : min 2 (WORD - 2) = 2 := by omega
  rw [hmin]
  rw [if_neg (by omega), if_neg (by omega)]
  have hfind : findCount [] 0 2 = none := rfl
  rw [hfind]
  dsimp only
  rw [wsub_zero_one]
  have hspec := (countRecF_spec f (WORD - 1) 2 [] goodMemo_nil (by omega)
    (by omega) (by omega)).2 choose_wordtop_two
  rw [hspec]

/-- The counter raises overflow on the out-of-domain query `count(1, 2)`:
the unsigned normalization `min(m, n-m)` wraps around, the recursion
reaches `n = WORD - 1`, and the sum overflows. -/
theorem countRec_one_two : countRec [] 1 2 = .error .overflow := by
  unfold countRec
  have hW := four_le_WORD
  obtain ⟨f, hf⟩ : ∃ f, 3 * WORD = f + 1 := ⟨3 * WORD - 1, by omega⟩
  rw [hf]
  simp only [countRecF]
  have hw : wsub 1 2 = WORD - 1 := by
    simp only [wsub]
    rw [if_neg (by omega)]
    omega
  rw [hw]
  have hmin : min 2 (WORD - 1) = 2 := by omega
  rw [hmin]
  rw [if_neg (by omega), if_neg (by omega)]
  have hfind : findCount [] 1 2 = none := rfl
  rw [hfind]
  dsimp only
  have hw1 : wsub 1 1 = 0 := by simp [wsub]
  rw [hw1]
  rw [countRecF_zero_two f (by omega)]

theorem countFresh_one_two : countFresh 1 2 = .error .overflow := by
  unfold countFresh
  rw [countRec_one_two]
  rfl

/-- Canonical lexicographic list of all m-element combinations of a list:
for each element, first the combinations containing it, then those
omitting it.  This is the common specification of the three generation
components. -/
def combs {T : Type} : Nat → List T → List (List T)
  | 0, _ => [[]]
  | _ + 1, [] => []
  | m + 1, x :: xs => (combs m xs).map (fun c => x :: c) ++ combs (m + 1) xs

theorem combs_length {T : Type} : ∀ (l : List T) (m : Nat),
    (combs m l).length = Nat.choose l.length m := by
  intro l
  induction l with
  | nil => intro m; cases m <;> simp [combs]
  | cons x xs ih =>
    intro m
    cases m with
    | zero => simp [combs]
    | succ m =>
      simp only [combs, List.length_append, List.length_map, ih,
        List.length_cons, Nat.choose_succ_succ']

theorem combs_eq_nil_of_lt {T : Type} : ∀ (l : List T) (m : Nat),
    l.length < m → combs m l = [] := by
  intro l
  induction l with
  | nil =>
    intro m hm
    obtain ⟨m2, rfl⟩ : ∃ m2, m = m2 + 1 := ⟨m - 1, by simp at hm; omega⟩
    simp [combs]
  | cons x xs ih =>
    intro m hm
    obtain ⟨m2, rfl⟩ : ∃ m2, m = m2 + 1 := ⟨m - 1, by simp at hm; omega⟩
    simp only [combs]
    rw [ih m2 (by simp at hm; omega), ih (m2 + 1) (by simp at hm; omega)]
    simp

theorem combs_mem_length {T : Type} : ∀ (l : List T) (m : Nat) (c : List T),
    c ∈ combs m l → c.length = m := by
  intro l
  induction l with
  | nil =>
    intro m c hc
    cases m with
    | zero => simp [combs] at hc; simp [hc]
    | succ m => simp [combs] at hc
  | cons x xs ih =>
    intro m c hc
    cases m with
    | zero => simp [combs] at hc; simp [hc]
    | succ m =>
      simp only [combs, List.mem_append, List.mem_map] at hc
      rcases hc with ⟨c2, hc2, rfl⟩ | hc
      · simp [ih m c2 hc2]
      · exact ih (m + 1) c hc

theorem combs_sublist {T : Type} : ∀ (l : List T) (m : Nat) (c : List T),
    c ∈ combs m l → c.Sublist l := by
  intro l
  induction l with
  | nil =>
    intro m c hc
    cases m with
    | zero => simp [combs] at hc; simp [hc]
    | succ m => simp [combs] at hc
  | cons x xs ih =>
    intro m c hc
    cases m with
    | zero =>
      simp [combs] at hc
      simp [hc]
    | succ m =>
      simp only [combs, List.mem_append, List.mem_map] at hc
      rcases hc with ⟨c2, hc2, rfl⟩ | hc
      · exact List.Sublist.cons₂ x (ih m c2 hc2)
      · exact List.Sublist.cons x (ih (m + 1) c hc)

theorem combs_pairwise_lt {T : Type} {r : T → T → Prop} :
    ∀ (l : List T) (m : Nat) (c : List T), List.Pairwise r l →
      c ∈ combs m l → List.Pairwise r c := by
  intro l
  induction l with
  | nil =>
    intro m c _ hc
    cases m with
    | zero => simp [combs] at hc; simp [hc]
    | succ m => simp [combs] at hc
  | cons x xs ih =>
    intro m c hp hc
    cases m with
    | zero => simp [combs] at hc; simp [hc]
    | succ m =>
      rw [List.pairwise_cons] at hp
      simp only [combs, List.mem_append, List.mem_map] at hc
      rcases hc with ⟨c2, hc2, rfl⟩ | hc
      · rw [List.pairwise_cons]
        constructor
        · intro y hy
          exact hp.1 y ((combs_sublist xs m c2 hc2).subset hy)
        · exact ih m c2 hp.2 hc2
      · exact ih (m + 1) c hp.2 hc

theorem combs_pairwise_lex {T : Type} {r : T → T → Prop} :
    ∀ (l : List T) (m : Nat), List.Pairwise r l →
      List.Pairwise (List.Lex r) (combs m l) := by
  intro l
  induction l with
  | nil =>
    intro m _
    cases m with
    | zero => simp [combs]
    | succ m => simp [combs]
  | cons x xs ih =>
    intro m hp
    cases m with
    | zero => simp [combs]
    | succ m =>
      rw [List.pairwise_cons] at hp
      simp only [combs]
      rw [List.pairwise_append]
      refine ⟨?_, ih (m + 1) hp.2, ?_⟩
      · rw [List.pairwise_map]
        exact (ih m hp.2).imp (fun h => List.Lex.cons h)
      · intro a ha b hb
        simp only [List.mem_map] at ha
        obtain ⟨a2, _, rfl⟩ := ha
        have hblen : b.length = m + 1 := combs_mem_length xs (m + 1) b hb
        cases b with
        | nil => simp at hblen
        | cons y b2 =>
          have hy : y ∈ xs := (combs_sublist xs (m + 1) _ hb).subset (by simp)
          exact List.Lex.rel (hp.1 y hy)

theorem combs_map {T U : Type} (f : T → U) : ∀ (l : List T) (m : Nat),
    combs m (l.map f) = (combs m l).map (List.map f) := by
  intro l
  induction l with
  | nil =>
    intro m
    cases m with
    | zero => simp [combs]
    | succ m => simp [combs]
  | cons x xs ih =>
    intro m
    cases m with
    | zero => simp [combs]
    | succ m =>
      simp [combs, ih, List.map_map, Function.comp_def]

theorem map_getD_range {T : Type} : ∀ (l : List T) (d : T),
    (List.range l.length).map (fun j => l.getD j d) = l := by
  intro l
  induction l with
  | nil => intro d; simp
  | cons x xs ih =>
    intro d
    rw [List.length_cons, List.range_succ_eq_map]
    simp only [List.map_cons, List.getD_cons_zero, List.map_map]
    congr 1
    have : (fun j => (x :: xs).getD j d) ∘ Nat.succ = fun j => xs.getD j d := by
      funext j
      simp
    rw [this]
    exact ih d

theorem combs_idx {T : Type} : ∀ (l : List T) (m : Nat),
    (combs m (List.range l.length)).map
      (fun I => I.filterMap (fun j => l[j]?)) = combs m l := by
  intro l
  induction l with
  | nil =>
    intro m
    cases m with
    | zero => simp [combs]
    | succ m => simp [combs]
  | cons x xs ih =>
    intro m
    cases m with
    | zero => simp [combs]
    | succ m =>
      rw [List.length_cons, List.range_succ_eq_map]
      simp only [combs, List.map_append, List.map_map, combs_map]
      congr 1
      · rw [← ih m]
        simp only [List.map_map]
        apply List.map_congr_left
        intro I _
        simp [Function.comp_def, List.filterMap_map, Nat.succ_eq_add_one]
      · rw [← ih (m + 1)]
        apply List.map_congr_left
        intro I _
        simp [Function.comp_def, List.filterMap_map, Nat.succ_eq_add_one]

/-- Embedding of `Generator::generateRec` (fuel-indexed).  If the current
combination is still short of `m`, read the current element (out of bounds
is UB, modeled as `Err.oob`), recurse including it, then recurse excluding
it provided enough elements remain (`curIdx + (m - curSet.size()) <
set.size()` in `size_t` arithmetic); otherwise append the completed
combination.  The returned list models the order of `push_back` calls on
`_combinations`. -/
def generateRecF {T : Type} (set : List T) (m : Nat) :
    Nat → Nat → List T → Except Err (List (List T))
  | 0, _, _ => .error .fuel
  | fuel + 1, curIdx, curSet =>
    if curSet.length < m then
      match set[curIdx]? with
      | none => .error .oob
      | some x =>
        match generateRecF set m fuel (curIdx + 1) (curSet ++ [x]) with
        | .error e => .error e
        | .ok r1 =>
          if curIdx + wsub m curSet.length < set.length then
            match generateRecF set m fuel (curIdx + 1) curSet with
            | .error e => .error e
            | .ok r2 => .ok (r1 ++ r2)
          else .ok r1
    else .ok [curSet]

/-- Embedding of the traversal started by `Generator::generate` (the fuel
covers the maximal recursion depth `m + n`). -/
def genCombs {T : Type} (set : List T) (m : Nat) : Except Err (List (List T)) :=
  generateRecF set m (m + set.length + 1) 0 []

/-- Embedding of `Generator::generate`: first `Counter().count(n, m)` for
the `reserve` call (a fresh counter, so an overflow there propagates),
then the recursive traversal. -/
def generate {T : Type} (set : List T) (m : Nat) : Except Err (List (List T)) :=
  match countRec [] set.length m with
  | .error e => .error e
  | .ok _ => genCombs set m

/-- Correctness of the generator recursion: under the feasibility
invariant it returns exactly the canonical combinations of the remaining
suffix, each prefixed with the current partial combination. -/
theorem generateRecF_spec {T : Type} (set : List T) (m : Nat) :
    ∀ fuel curIdx curSet, curSet.length ≤ m →
      m ≤ curSet.length + (set.length - curIdx) →
      (m - curSet.length) + (set.length - curIdx) + 1 ≤ fuel →
      generateRecF set m fuel curIdx curSet =
        .ok ((combs (m - curSet.length) (set.drop curIdx)).map
          (fun c => curSet ++ c)) := by
  intro fuel
  induction fuel with
  | zero => intro curIdx curSet _ _ hf; omega
  | succ f ih =>
    intro curIdx curSet h1 h2 hf
    simp only [generateRecF]
    by_cases hlt : curSet.length < m
    · rw [if_pos hlt]
      have hidx : curIdx < set.length := by omega
      rw [List.getElem?_eq_getElem hidx]
      dsimp only
      rw [ih (curIdx + 1) (curSet ++ [set[curIdx]])
        (by simp only [List.length_append, List.length_cons, List.length_nil]; omega)
        (by simp only [List.length_append, List.length_cons, List.length_nil]; omega)
        (by simp only [List.length_append, List.length_cons, List.length_nil]; omega)]
      dsimp only
      rw [wsub_of_le (by omega)]
      rw [List.drop_eq_getElem_cons hidx]
      obtain ⟨k, hk⟩ : ∃ k, m - curSet.length = k + 1 :=
        ⟨m - curSet.length - 1, by omega⟩
      rw [hk]
      have hk2 : m - (curSet ++ [set[curIdx]]).length = k := by
        simp only [List.length_append, List.length_cons, List.length_nil]
        omega
      rw [hk2]
      simp only [combs, List.map_append, List.map_map]
      by_cases hcond : curIdx + (k + 1) < set.length
      · rw [if_pos hcond]
        rw [ih (curIdx + 1) curSet (by omega) (by omega) (by omega)]
        dsimp only
        rw [hk]
        refine congrArg Except.ok ?_
        congr 1
        apply List.map_congr_left
        intro c _
        simp
      · rw [if_neg hcond]
        have hnil : combs (k + 1) (set.drop (curIdx + 1)) = [] := by
          apply combs_eq_nil_of_lt
          rw [List.length_drop]
          omega
        rw [hnil]
        simp only [List.map_nil, List.append_nil]
        refine congrArg Except.ok ?_
        apply List.map_congr_left
        intro c _
        simp
    · rw [if_neg hlt]
      have hlen : curSet.length = m := by omega
      have : m - curSet.length = 0 := by omega
      rw [this]
      simp [combs]

theorem genCombs_spec {T : Type} (set : List T) (m : Nat)
    (h : m ≤ set.length) : genCombs set m = .ok (combs m set) := by
  unfold genCombs
  rw [generateRecF_spec set m (m + set.length + 1) 0 []
    (by simp) (by simp; omega) (by omega)]
  simp

theorem genCombs_zero {T : Type} (set : List T) : genCombs set 0 = .ok [[]] := by
  unfold genCombs
  simp [generateRecF]

theorem generate_spec {T : Type} (set : List T) (m : Nat)
    (h1 : m ≤ set.length) (h2 : set.length < WORD)
    (h3 : Nat.choose set.length m < WORD) :
    generate set m = .ok (combs m set) := by
  unfold generate
  obtain ⟨memo2, heq, _⟩ :=
    (countRecF_spec (3 * WORD) set.length m [] goodMemo_nil h1 h2 (by omega)).1 h3
  unfold countRec
  rw [heq]
  dsimp only
  exact genCombs_spec set m h1

theorem generate_zero {T : Type} (set : List T) : generate set 0 = .ok [[]] := by
  unfold generate
  rw [countRec_m_zero]
  exact genCombs_zero set

theorem generate_overflow {T : Type} (set : List T) (m : Nat) (e : Err)
    (h : countRec [] set.length m = .error e) : generate set m = .error e := by
  unfold generate
  rw [h]

/-- Embedding of the private recursive `Lexor::get(n, m, i, nel, r)`
(fuel-indexed).  While `m > 0`: count the combinations that contain the
leading position (`elCnt = count(n-1, m-1)`, sharing the instance's memo);
if `i < elCnt` the element at `nel` is appended and the recursion
continues with `n-1, m-1`, otherwise the rank is reduced by `elCnt` and
the element is skipped.  The two release-mode asserts are no-ops. -/
def lexGetRecF {T : Type} (set : List T) :
    Nat → Memo → Nat → Nat → Nat → Nat → List T → Except Err (List T × Memo)
  | 0, _, _, _, _, _, _ => .error .fuel
  | fuel + 1, memo, n, m, i, nel, r =>
    if 0 < m then
      match countRec memo (wsub n 1) (wsub m 1) with
      | .error e => .error e
      | .ok (elCnt, memo1) =>
        if i < elCnt then
          match set[nel]? with
          | none => .error .oob
          | some x =>
            lexGetRecF set fuel memo1 (wsub n 1) (wsub m 1) i (nel + 1) (r ++ [x])
        else
          lexGetRecF set fuel memo1 (wsub n 1) m (i - elCnt) (nel + 1) r
    else .ok (r, memo)

/-- Embedding of the public `Lexor::get(i)` with subset size `m` set:
validate the rank against `count(_n, _m)` on the instance's counter and
either run the recursive construction or return the empty vector.  The
threaded memo models the `Lexor`'s private `Counter` state. -/
def lexGet {T : Type} (set : List T) (m i : Nat) (memo : Memo) :
    Except Err (List T × Memo) :=
  match countRec memo set.length m with
  | .error e => .error e
  | .ok (total, memo1) =>
    if i < total then lexGetRecF set (set.length + 1) memo1 set.length m i 0 []
    else .ok ([], memo1)

/-- Sequence of `get(0), get(1), ..` calls against one `Lexor` instance,
threading its memo. -/
def lexSeqAux {T : Type} (set : List T) (m : Nat) :
    List Nat → Memo → Except Err (List (List T))
  | [], _ => .ok []
  | i :: is, memo =>
    match lexGet set m i memo with
    | .error e => .error e
    | .ok (c, memo2) =>
      match lexSeqAux set m is memo2 with
      | .error e => .error e
      | .ok rest => .ok (c :: rest)

/-- Materialization of `Lexor.get(i)` for `i = 0 .. cnt-1` on a fresh
`Lexor`. -/
def lexSeq {T : Type} (set : List T) (m cnt : Nat) : Except Err (List (List T)) :=
  lexSeqAux set m (List.range cnt) []

theorem combs_cons_of_pos {T : Type} (x : T) (xs : List T) {m : Nat}
    (h : 0 < m) : combs m (x :: xs) =
      (combs (m - 1) xs).map (fun c => x :: c) ++ combs m xs := by
  obtain ⟨k, rfl⟩ : ∃ k, m = k + 1 := ⟨m - 1, by omega⟩
  simp [combs]

/-- Correctness of the recursive decision rule of `Lexor`: for a valid
rank it produces exactly the rank-i combination of the remaining suffix,
appended to the accumulator, and preserves the memo invariant. -/
theorem lexGetRecF_spec {T : Type} (set : List T) : ∀ n2 fuel memo m i nel r,
    GoodMemo memo → m ≤ n2 → nel + n2 = set.length → set.length < WORD →
    i < Nat.choose n2 m → Nat.choose n2 m < WORD → n2 + 1 ≤ fuel →
    ∃ c memo2, lexGetRecF set fuel memo n2 m i nel r = .ok (r ++ c, memo2) ∧
      (combs m (set.drop nel))[i]? = some c ∧ GoodMemo memo2 := by
  intro n2
  induction n2 with
  | zero =>
    intro fuel memo m i nel r hg hmn hnel hW hi hcW hf
    obtain ⟨f, rfl⟩ : ∃ f, fuel = f + 1 := ⟨fuel - 1, by omega⟩
    have hm0 : m = 0 := by omega
    subst hm0
    simp only [lexGetRecF, Nat.lt_irrefl, if_neg (by omega : ¬ (0:Nat) < 0)]
    refine ⟨[], memo, by simp, ?_, hg⟩
    have hi0 : i = 0 := by simpa using hi
    subst hi0
    simp [combs]
  | succ n ih =>
    intro fuel memo m i nel r hg hmn hnel hW hi hcW hf
    obtain ⟨f, rfl⟩ : ∃ f, fuel = f + 1 := ⟨fuel - 1, by omega⟩
    rcases Nat.eq_zero_or_pos m with hm0 | hmpos
    · subst hm0
      simp only [lexGetRecF, if_neg (by omega : ¬ (0:Nat) < 0)]
      refine ⟨[], memo, by simp, ?_, hg⟩
      have hi0 : i = 0 := by simpa using hi
      subst hi0
      simp [combs]
    · simp only [lexGetRecF, if_pos hmpos]
      rw [wsub_of_le (by omega : 1 ≤ n + 1), wsub_of_le (by omega : 1 ≤ m)]
      have hn1 : n + 1 - 1 = n := by omega
      rw [hn1]
      have hpascal : Nat.choose (n + 1) m =
          Nat.choose n (m - 1) + Nat.choose n m := by
        have := Nat.choose_succ_succ' n (m - 1)
        have e2 : m - 1 + 1 = m := by omega
        rw [e2] at this
        exact this
      have hc0W : Nat.choose n (m - 1) < WORD := by omega
      obtain ⟨memo1, hcount, hg1⟩ :=
        (countRecF_spec (3 * WORD) n (m - 1) memo hg (by omega) (by omega)
          (by omega)).1 hc0W
      unfold countRec
      rw [hcount]
      dsimp only
      have hnel_lt : nel < set.length := by omega
      have hdrop : set.drop nel = set[nel] :: set.drop (nel + 1) :=
        List.drop_eq_getElem_cons hnel_lt
      have hdlen : (set.drop (nel + 1)).length = n := by
        rw [List.length_drop]
        omega
      by_cases hlt : i < Nat.choose n (m - 1)
      · rw [if_pos hlt]
        rw [List.getElem?_eq_getElem hnel_lt]
        dsimp only
        obtain ⟨c, memo2, heq, hsome, hg2⟩ := ih f memo1 (m - 1) i (nel + 1)
          (r ++ [set[nel]]) hg1 (by omega) (by omega) hW hlt hc0W (by omega)
        refine ⟨set[nel] :: c, memo2, ?_, ?_, hg2⟩
        · rw [heq]
          simp
        · rw [hdrop, combs_cons_of_pos _ _ hmpos]
          rw [List.getElem?_append_left
            (by rw [List.length_map, combs_length, hdlen]; omega)]
          rw [List.getElem?_map, hsome]
          rfl
      · rw [if_neg hlt]
        have hmn2 : m ≤ n := by
          by_contra hcon
          have : Nat.choose n m = 0 := Nat.choose_eq_zero_of_lt (by omega)
          omega
        obtain ⟨c, memo2, heq, hsome, hg2⟩ := ih f memo1 m (i - Nat.choose n (m - 1))
          (nel + 1) r hg1 hmn2 (by omega) hW (by omega) (by omega) (by omega)
        refine ⟨c, memo2, heq, ?_, hg2⟩
        rw [hdrop, combs_cons_of_pos _ _ hmpos]
        rw [List.getElem?_append_right
          (by rw [List.length_map, combs_length, hdlen]; omega)]
        rw [List.length_map, combs_length, hdlen]
        exact hsome

/-- Specification of the public `Lexor::get(i)`: an in-range rank yields
exactly the rank-i canonical combination; an out-of-range rank (including
exactly one past the end) yields the empty vector without any error, and
either way the memo invariant is preserved so the indexer stays usable. -/
theorem lexGet_spec {T : Type} (set : List T) (m i : Nat) (memo : Memo)
    (hg : GoodMemo memo) (h1 : m ≤ set.length) (h2 : set.length < WORD)
    (h3 : Nat.choose set.length m < WORD) :
    (i < Nat.choose set.length m →
      ∃ c memo2, lexGet set m i memo = .ok (c, memo2) ∧
        (combs m set)[i]? = some c ∧ GoodMemo memo2) ∧
    (Nat.choose set.length m ≤ i →
      ∃ memo2, lexGet set m i memo = .ok ([], memo2) ∧ GoodMemo memo2) := by
  obtain ⟨memo1, hcount, hg1⟩ :=
    (countRecF_spec (3 * WORD) set.length m memo hg h1 h2 (by omega)).1 h3
  unfold lexGet countRec
  rw [hcount]
  dsimp only
  constructor
  · intro hi
    rw [if_pos hi]
    obtain ⟨c, memo2, heq, hsome, hg2⟩ := lexGetRecF_spec set set.length
      (set.length + 1) memo1 m i 0 [] hg1 h1 (by omega) h2 hi h3 (by omega)
    refine ⟨c, memo2, ?_, ?_, hg2⟩
    · rw [heq]
      simp
    · simpa using hsome
  · intro hi
    rw [if_neg (by omega)]
    exact ⟨memo1, rfl, hg1⟩

/-- Lexor with `m = 0` immediately returns the empty combination: the
count is 1, rank 0 is in range, and the recursion stops at once. -/
theorem lexGet_zero {T : Type} (set : List T) (memo : Memo) :
    lexGet set 0 0 memo = .ok ([], memo) := by
  unfold lexGet
  rw [countRec_m_zero]
  dsimp only
  rw [if_pos (by omega : (0:Nat) < 1)]
  unfold lexGetRecF
  simp

/-- The overflow raised by the counter during rank validation propagates
unchanged out of `Lexor::get`. -/
theorem lexGet_overflow {T : Type} (set : List T) (m i : Nat) (memo : Memo)
    (e : Err) (h : countRec memo set.length m = .error e) :
    lexGet set m i memo = .error e := by
  unfold lexGet
  rw [h]

/-- The overflow raised by the counter inside the decision rule of the
recursive `Lexor::get` propagates unchanged. -/
theorem lexGetRecF_overflow {T : Type} (set : List T) (fuel : Nat)
    (memo : Memo) (n m i nel : Nat) (r : List T) (e : Err) (hm : 0 < m)
    (h : countRec memo (wsub n 1) (wsub m 1) = .error e) :
    lexGetRecF set (fuel + 1) memo n m i nel r = .error e := by
  unfold lexGetRecF
  rw [if_pos hm, h]

theorem lexSeqAux_spec {T : Type} (set : List T) (m : Nat)
    (h1 : m ≤ set.length) (h2 : set.length < WORD)
    (h3 : Nat.choose set.length m < WORD) :
    ∀ js memo, GoodMemo memo → (∀ j ∈ js, j < Nat.choose set.length m) →
      lexSeqAux set m js memo =
        .ok (js.map (fun j => (combs m set).getD j [])) := by
  intro js
  induction js with
  | nil => intro memo _ _; rfl
  | cons j js ih =>
    intro memo hg hjs
    obtain ⟨c, memo2, heq, hsome, hg2⟩ :=
      (lexGet_spec set m j memo hg h1 h2 h3).1 (hjs j (by simp))
    simp only [lexSeqAux]
    rw [heq]
    dsimp only
    rw [ih memo2 hg2 (fun a ha => hjs a (by simp [ha]))]
    dsimp only
    rw [List.map_cons]
    rw [List.getD_eq_getElem?_getD, hsome]
    rfl

/-- Querying one `Lexor` instance at every rank `0 .. C(n,m)-1` yields
exactly the canonical combination list. -/
theorem lexSeq_spec {T : Type} (set : List T) (m : Nat)
    (h1 : m ≤ set.length) (h2 : set.length < WORD)
    (h3 : Nat.choose set.length m < WORD) :
    lexSeq set m (Nat.choose set.length m) = .ok (combs m set) := by
  unfold lexSeq
  rw [lexSeqAux_spec set m h1 h2 h3 (List.range (Nat.choose set.length m)) []
    goodMemo_nil (fun j hj => List.mem_range.mp hj)]
  have hlen : Nat.choose set.length m = (combs m set).length :=
    (combs_length set m).symm
  rw [hlen, map_getD_range]

/-- State of an `Enumerator` instance: the borrowed base sequence `_set`,
the subset size `_m`, the partial combination `_curSet`, the position
stack `_idxStack` (head is the stack top), and the per-position visit
array `_stateStack` (length `n + 1`). -/
structure EnumSt (T : Type) where
  set : List T
  m : Nat
  curSet : List T
  idxStack : List Nat
  stateStack : List Nat

/-- Outcome of one iteration of the while loop of `Enumerator::next`:
continue looping with a new state, return a combination from inside the
loop, exit the loop because the stack is empty (returning `_curSet`
unchanged), or hit undefined behaviour. -/
inductive StepRes (T : Type) where
  | more : EnumSt T → StepRes T
  | yield : List T → EnumSt T → StepRes T
  | stop : List T → StepRes T
  | fail : Err → StepRes T

/-- One iteration of the loop body of `Enumerator::next`, mirroring the
source: read the top of `_idxStack` and its visit state (out-of-bounds
reads of `_stateStack`, `_set`, and `pop_back` on an empty `_curSet` are
UB, modeled as `fail .oob`); state 0 descends (include the element) or
yields a completed combination; state 1 pops the included element and
takes the exclude branch if feasible; any other state pops and resets. -/
def stepE {T : Type} (st : EnumSt T) : StepRes T :=
  match st.idxStack with
  | [] => .stop st.curSet
  | curIdx :: rest =>
    match st.stateStack[curIdx]? with
    | none => .fail .oob
    | some state =>
      if state = 0 then
        if st.curSet.length < st.m then
          match st.set[curIdx]? with
          | none => .fail .oob
          | some x =>
            .more ⟨st.set, st.m, st.curSet ++ [x], (curIdx + 1) :: curIdx :: rest,
              st.stateStack.set curIdx 1⟩
        else
          .yield st.curSet ⟨st.set, st.m, st.curSet, rest, st.stateStack⟩
      else if state = 1 then
        if st.curSet.isEmpty then .fail .oob
        else
          let cs := st.curSet.dropLast
          if curIdx + wsub st.m cs.length < st.set.length then
            .more ⟨st.set, st.m, cs, (curIdx + 1) :: curIdx :: rest,
              st.stateStack.set curIdx 2⟩
          else
            .more ⟨st.set, st.m, cs, rest, st.stateStack.set curIdx 0⟩
      else
        .more ⟨st.set, st.m, st.curSet, rest, st.stateStack.set curIdx 0⟩

/-- The while loop of `Enumerator::next` (fuel-indexed): iterate `stepE`
until a yield, loop exit, or UB. -/
def nextF {T : Type} : Nat → EnumSt T → Except Err (List T × EnumSt T)
  | 0, _ => .error .fuel
  | fuel + 1, st =>
    match stepE st with
    | .more st2 => nextF fuel st2
    | .yield o st2 => .ok (o, st2)
    | .stop o => .ok (o, st)
    | .fail e => .error e

/-- Embedding of `Enumerator::next`: the fuel `4 ^ (n + 2)` dominates the
iteration count of any single traversal (proved below for reachable
states). -/
def next {T : Type} (st : EnumSt T) : Except Err (List T × EnumSt T) :=
  nextF (4 ^ (st.set.length + 2)) st

/-- Fresh traversal state installed by `Enumerator::first`: `_curSet`
cleared, `_idxStack` holding position 0, `_stateStack` resized to `n + 1`
zeros. -/
def mkSt {T : Type} (set : List T) (m : Nat) : EnumSt T :=
  ⟨set, m, [], [0], List.replicate (set.length + 1) 0⟩

/-- Embedding of `Enumerator::first(m)`: reset all traversal state (the
prior state is discarded), then delegate to `next()` unless `m = 0`, in
which case the empty `_curSet` is returned directly. -/
def first {T : Type} (st : EnumSt T) (m : Nat) : Except Err (List T × EnumSt T) :=
  if m ≠ 0 then next (mkSt st.set m) else .ok ([], mkSt st.set m)

/-- Driver loop calling `next()` until it returns an empty combination,
collecting the nonempty results (mirrors the loop in the test bench). -/
def enumRunAux {T : Type} : Nat → EnumSt T → Except Err (List (List T))
  | 0, _ => .error .fuel
  | cf + 1, st =>
    match next st with
    | .error e => .error e
    | .ok (o, st2) =>
      match o with
      | [] => .ok []
      | _ :: _ =>
        match enumRunAux cf st2 with
        | .error e => .error e
        | .ok rest => .ok (o :: rest)

/-- The complete enumeration protocol starting from an arbitrary prior
enumerator state: `first(m)`, then `next()` until an empty result,
collecting the nonempty combinations in order. -/
def enumRunFrom {T : Type} (st : EnumSt T) (m : Nat) : Except Err (List (List T)) :=
  match first st m with
  | .error e => .error e
  | .ok (o, st2) =>
    match o with
    | [] => .ok []
    | _ :: _ =>
      match enumRunAux (Nat.choose st.set.length m + 1) st2 with
      | .error e => .error e
      | .ok rest => .ok (o :: rest)

/-- The complete enumeration protocol on a fresh enumerator. -/
def enumRun {T : Type} (set : List T) (m : Nat) : Except Err (List (List T)) :=
  enumRunFrom (mkSt set m) m

-- Abstract description of the reachable enumerator states: a list of
-- include/exclude decisions for the first positions.

/-- List `[k-1, ..., 1, 0]`: the shape of the position stack, whose
entries are always consecutive. -/
def revRange : Nat → List Nat
  | 0 => []
  | k + 1 => k :: revRange k

/-- Visit-state array determined by the decisions `ds`: state 1 below the
top for included positions, 2 for excluded ones, 0 everywhere above. -/
def stateOf (n : Nat) (ds : List Bool) : List Nat :=
  ds.map (fun b => if b then 1 else 2) ++ List.replicate (n + 1 - ds.length) 0

/-- Partial combination determined by the decisions: the elements at the
included positions, in order. -/
def chosen {T : Type} : List Bool → List T → List T
  | [], _ => []
  | _ :: _, [] => []
  | true :: ds, x :: xs => x :: chosen ds xs
  | false :: ds, _ :: xs => chosen ds xs

/-- Enumerator state about to explore the subtree at position `ds.length`
(that position is fresh, state 0). -/
def DescSt {T : Type} (set : List T) (m : Nat) (ds : List Bool) : EnumSt T :=
  ⟨set, m, chosen ds set, revRange (ds.length + 1), stateOf set.length ds⟩

/-- Enumerator state that has just finished the subtree at position
`ds.length` and popped it (the top of the stack is position
`ds.length - 1`, still carrying its decision state). -/
def PostSt {T : Type} (set : List T) (m : Nat) (ds : List Bool) : EnumSt T :=
  ⟨set, m, chosen ds set, revRange ds.length, stateOf set.length ds⟩

/-- Iterated loop execution: `Loops s k os s2` says that `k` iterations of
the loop body lead from `s` to `s2`, yielding the combinations `os` along
the way.  Because a `next()` call returns at a yield and the following
call resumes the loop on the returned state unchanged, a chain of `next()`
calls is exactly one such run. -/
inductive Loops {T : Type} : EnumSt T → Nat → List (List T) → EnumSt T → Prop where
  | refl : ∀ s, Loops s 0 [] s
  | more : ∀ s s1 s2 k os, stepE s = .more s1 → Loops s1 k os s2 →
      Loops s (k + 1) os s2
  | yield : ∀ s s1 s2 k o os, stepE s = .yield o s1 → Loops s1 k os s2 →
      Loops s (k + 1) (o :: os) s2

-- Facts about chosen and stateOf.

theorem chosen_concat_true {T : Type} : ∀ (ds : List Bool) (set : List T) (x : T),
    set[ds.length]? = some x →
    chosen (ds ++ [true]) set = chosen ds set ++ [x] := by
  intro ds
  induction ds with
  | nil =>
    intro set x hx
    cases set with
    | nil => simp at hx
    | cons y ys =>
      simp only [List.length_nil, List.getElem?_cons_zero, Option.some_inj] at hx
      subst hx
      rfl
  | cons b ds ih =>
    intro set x hx
    cases set with
    | nil => simp at hx
    | cons y ys =>
      rw [List.length_cons, List.getElem?_cons_succ] at hx
      cases b with
      | true =>
        simp only [List.cons_append, chosen]
        exact congrArg (fun l => y :: l) (ih ys x hx)
      | false =>
        simp only [List.cons_append, chosen]
        exact ih ys x hx

theorem chosen_concat_false {T : Type} : ∀ (ds : List Bool) (set : List T),
    chosen (ds ++ [false]) set = chosen ds set := by
  intro ds
  induction ds with
  | nil =>
    intro set
    cases set <;> rfl
  | cons b ds ih =>
    intro set
    cases set with
    | nil => cases b <;> rfl
    | cons y ys =>
      cases b with
      | true =>
        simp only [List.cons_append, chosen]
        exact congrArg (fun l => y :: l) (ih ys)
      | false =>
        simp only [List.cons_append, chosen]
        exact ih ys

theorem stateOf_get_top (n : Nat) (ds : List Bool) (h : ds.length ≤ n) :
    (stateOf n ds)[ds.length]? = some 0 := by
  unfold stateOf
  rw [List.getElem?_append_right (by simp)]
  simp only [List.length_map, Nat.sub_self, List.getElem?_replicate]
  rw [if_pos (by omega)]

theorem stateOf_get_last (n : Nat) (ds : List Bool) (d : Bool) :
    (stateOf n (ds ++ [d]))[ds.length]? = some (if d then 1 else 2) := by
  unfold stateOf
  rw [List.getElem?_append_left (by simp)]
  rw [List.map_append]
  rw [List.getElem?_append_right (by simp)]
  simp

theorem stateOf_set_fresh (n : Nat) (ds : List Bool) (d : Bool)
    (h : ds.length ≤ n) :
    (stateOf n ds).set ds.length (if d then 1 else 2) = stateOf n (ds ++ [d]) := by
  unfold stateOf
  rw [List.set_append_right _ _ (by simp)]
  simp only [List.length_map, Nat.sub_self]
  have h1 : n + 1 - ds.length = (n - ds.length) + 1 := by omega
  rw [h1, List.replicate_succ, List.set_cons_zero]
  rw [List.map_append]
  simp only [List.map_cons, List.map_nil, List.length_append, List.length_cons,
    List.length_nil]
  have h2 : n + 1 - (ds.length + 1) = n - ds.length := by omega
  rw [h2]
  simp [List.append_assoc]

theorem stateOf_set_reset (n : Nat) (ds : List Bool) (d : Bool)
    (h : ds.length ≤ n) :
    (stateOf n (ds ++ [d])).set ds.length 0 = stateOf n ds := by
  unfold stateOf
  rw [List.map_append]
  rw [List.set_append_left _ _ (by simp)]
  rw [List.set_append_right _ _ (by simp)]
  simp only [List.length_map, Nat.sub_self, List.map_cons, List.map_nil,
    List.set_cons_zero, List.length_append, List.length_cons, List.length_nil]
  have h2 : n + 1 - (ds.length + 1) = n - ds.length := by omega
  have h1 : n + 1 - ds.length = (n - ds.length) + 1 := by omega
  rw [h2, h1, List.replicate_succ]
  simp [List.append_assoc]

theorem stateOf_get_last_true (n : Nat) (ds : List Bool) :
    (stateOf n (ds ++ [true]))[ds.length]? = some 1 := by
  rw [stateOf_get_last]
  rfl

theorem stateOf_get_last_false (n : Nat) (ds : List Bool) :
    (stateOf n (ds ++ [false]))[ds.length]? = some 2 := by
  rw [stateOf_get_last]
  rfl

theorem stateOf_set_flip (n : Nat) (ds : List Bool) :
    (stateOf n (ds ++ [true])).set ds.length 2 = stateOf n (ds ++ [false]) := by
  unfold stateOf
  rw [List.map_append, List.map_append]
  rw [List.set_append_left _ _ (by simp)]
  rw [List.set_append_right _ _ (by simp)]
  simp

theorem postSt_concat {T : Type} (set : List T) (m : Nat) (ds : List Bool)
    (d : Bool) : PostSt set m (ds ++ [d]) = ⟨set, m, chosen (ds ++ [d]) set,
      ds.length :: revRange ds.length, stateOf set.length (ds ++ [d])⟩ := by
  unfold PostSt
  rw [List.length_append]
  simp [revRange]

theorem descSt_concat {T : Type} (set : List T) (m : Nat) (ds : List Bool)
    (d : Bool) : DescSt set m (ds ++ [d]) = ⟨set, m, chosen (ds ++ [d]) set,
      (ds.length + 1) :: ds.length :: revRange ds.length,
      stateOf set.length (ds ++ [d])⟩ := by
  unfold DescSt
  rw [List.length_append]
  simp [revRange]

theorem mkSt_eq_descSt {T : Type} (set : List T) (m : Nat) :
    mkSt set m = DescSt set m [] := rfl

-- The five transitions of the loop body on reachable states.

theorem stepE_desc_step {T : Type} (set : List T) (m : Nat) (ds : List Bool)
    (x : T) (hx : set[ds.length]? = some x)
    (hlt : (chosen ds set).length < m) :
    stepE (DescSt set m ds) = .more (DescSt set m (ds ++ [true])) := by
  have hdslt : ds.length < set.length := by
    by_contra hcon
    rw [List.getElem?_eq_none (by omega)] at hx
    simp at hx
  show stepE ⟨set, m, chosen ds set, ds.length :: revRange ds.length,
    stateOf set.length ds⟩ = _
  unfold stepE
  dsimp only
  rw [stateOf_get_top set.length ds (by omega)]
  dsimp only
  rw [if_pos rfl, if_pos hlt, hx]
  dsimp only
  rw [descSt_concat]
  rw [chosen_concat_true ds set x hx]
  rw [← stateOf_set_fresh set.length ds true (by omega)]
  rfl

theorem stepE_desc_yield {T : Type} (set : List T) (m : Nat) (ds : List Bool)
    (hle : ds.length ≤ set.length) (hfull : ¬ (chosen ds set).length < m) :
    stepE (DescSt set m ds) = .yield (chosen ds set) (PostSt set m ds) := by
  show stepE ⟨set, m, chosen ds set, ds.length :: revRange ds.length,
    stateOf set.length ds⟩ = _
  unfold stepE
  dsimp only
  rw [stateOf_get_top set.length ds hle]
  dsimp only
  rw [if_pos rfl, if_neg hfull]
  rfl

theorem stepE_post_true_feasible {T : Type} (set : List T) (m : Nat)
    (ds : List Bool) (x : T) (hx : set[ds.length]? = some x)
    (hwle : (chosen ds set).length ≤ m)
    (hcond : ds.length + (m - (chosen ds set).length) < set.length) :
    stepE (PostSt set m (ds ++ [true])) = .more (DescSt set m (ds ++ [false])) := by
  rw [postSt_concat]
  unfold stepE
  dsimp only
  rw [stateOf_get_last_true]
  dsimp only
  rw [if_neg (by omega), if_pos rfl]
  rw [chosen_concat_true ds set x hx]
  rw [if_neg (by simp : ¬((chosen ds set ++ [x]).isEmpty = true))]
  rw [List.dropLast_concat]
  rw [wsub_of_le hwle]
  rw [if_pos hcond]
  rw [descSt_concat]
  rw [chosen_concat_false]
  rw [stateOf_set_flip]

theorem stepE_post_true_infeasible {T : Type} (set : List T) (m : Nat)
    (ds : List Bool) (x : T) (hx : set[ds.length]? = some x)
    (hwle : (chosen ds set).length ≤ m) (hle : ds.length ≤ set.length)
    (hcond : ¬ ds.length + (m - (chosen ds set).length) < set.length) :
    stepE (PostSt set m (ds ++ [true])) = .more (PostSt set m ds) := by
  rw [postSt_concat]
  unfold stepE
  dsimp only
  rw [stateOf_get_last_true]
  dsimp only
  rw [if_neg (by omega), if_pos rfl]
  rw [chosen_concat_true ds set x hx]
  rw [if_neg (by simp : ¬((chosen ds set ++ [x]).isEmpty = true))]
  rw [List.dropLast_concat]
  rw [wsub_of_le hwle]
  rw [if_neg hcond]
  rw [stateOf_set_reset set.length ds true hle]
  rfl

theorem stepE_post_false {T : Type} (set : List T) (m : Nat) (ds : List Bool)
    (hle : ds.length ≤ set.length) :
    stepE (PostSt set m (ds ++ [false])) = .more (PostSt set m ds) := by
  rw [postSt_concat]
  unfold stepE
  dsimp only
  rw [stateOf_get_last_false]
  dsimp only
  rw [if_neg (by omega), if_neg (by omega)]
  rw [chosen_concat_false, stateOf_set_reset set.length ds false hle]
  rfl

theorem stepE_post_nil {T : Type} (set : List T) (m : Nat) :
    stepE (PostSt set m []) = .stop ([] : List T) := rfl

theorem loops_trans {T : Type} {s1 s2 s3 : EnumSt T} {k1 k2 : Nat}
    {os1 os2 : List (List T)} (h1 : Loops s1 k1 os1 s2)
    (h2 : Loops s2 k2 os2 s3) : Loops s1 (k1 + k2) (os1 ++ os2) s3 := by
  induction h1 with
  | refl s => simpa using h2
  | more s sa sb k os hstep _ ih =>
    have h3 : k + 1 + k2 = k + k2 + 1 := by omega
    rw [h3]
    exact Loops.more s sa s3 (k + k2) (os ++ os2) hstep (ih h2)
  | yield s sa sb k o os hstep _ ih =>
    have h3 : k + 1 + k2 = k + k2 + 1 := by omega
    rw [h3, List.cons_append]
    exact Loops.yield s sa s3 (k + k2) o (os ++ os2) hstep (ih h2)

theorem stepE_preserves {T : Type} (s s1 : EnumSt T) (o : List T)
    (h : stepE s = .more s1 ∨ stepE s = .yield o s1) :
    s1.set = s.set ∧ s1.m = s.m := by
  unfold stepE at h
  rcases h with h | h <;>
  · repeat' split at h
    all_goals (try (rw [ite_eq_iff] at h; rcases h with ⟨hc2, h⟩ | ⟨hc2, h⟩))
    all_goals (try cases h)
    all_goals simp_all

theorem loops_preserves {T : Type} {s : EnumSt T} {k : Nat}
    {os : List (List T)} {s2 : EnumSt T} (h : Loops s k os s2) :
    s2.set = s.set ∧ s2.m = s.m := by
  induction h with
  | refl s => exact ⟨rfl, rfl⟩
  | more s sa sb k os hstep _ ih =>
    obtain ⟨h1, h2⟩ := stepE_preserves s sa [] (Or.inl hstep)
    exact ⟨by rw [ih.1, h1], by rw [ih.2, h2]⟩
  | yield s sa sb k o os hstep _ ih =>
    obtain ⟨h1, h2⟩ := stepE_preserves s sa o (Or.inr hstep)
    exact ⟨by rw [ih.1, h1], by rw [ih.2, h2]⟩

theorem loops_yield_extract {T : Type} {s : EnumSt T} {k : Nat}
    {OS : List (List T)} {s2 : EnumSt T} (h : Loops s k OS s2) :
    ∀ o os, OS = o :: os → ∀ f, k < f →
      ∃ s1 k1, nextF f s = .ok (o, s1) ∧ Loops s1 k1 os s2 ∧ k1 < k := by
  induction h with
  | refl s => intro o os hOS; simp at hOS
  | more s sa sb k os2 hstep _ ih =>
    intro o os hOS f hf
    obtain ⟨f2, rfl⟩ : ∃ f2, f = f2 + 1 := ⟨f - 1, by omega⟩
    obtain ⟨s1, k1, hnext, hloops, hk⟩ := ih o os hOS f2 (by omega)
    refine ⟨s1, k1, ?_, hloops, by omega⟩
    simp only [nextF, hstep]
    exact hnext
  | yield s sa sb k o2 os2 hstep _ _ =>
    intro o os hOS f hf
    obtain ⟨f2, rfl⟩ : ∃ f2, f = f2 + 1 := ⟨f - 1, by omega⟩
    injection hOS with h1 h2
    subst h1
    subst h2
    refine ⟨sa, k, ?_, by assumption, by omega⟩
    simp only [nextF, hstep]

theorem loops_terminal_next {T : Type} {s : EnumSt T} {k : Nat}
    {OS : List (List T)} {s2 : EnumSt T} (h : Loops s k OS s2) :
    OS = [] → s2.idxStack = [] → ∀ f, k < f →
      nextF f s = .ok (s2.curSet, s2) := by
  induction h with
  | refl s =>
    intro _ hstack f hf
    obtain ⟨f2, rfl⟩ : ∃ f2, f = f2 + 1 := ⟨f - 1, by omega⟩
    have hstep : stepE s = .stop s.curSet := by
      unfold stepE
      rw [hstack]
    simp only [nextF, hstep]
  | more s sa sb k os hstep _ ih =>
    intro hOS hstack f hf
    obtain ⟨f2, rfl⟩ : ∃ f2, f = f2 + 1 := ⟨f - 1, by omega⟩
    simp only [nextF, hstep]
    exact ih hOS hstack f2 (by omega)
  | yield s sa sb k o os hstep _ _ =>
    intro hOS
    simp at hOS

theorem loops_run {T : Type} : ∀ (os : List (List T)) (s : EnumSt T) (k : Nat)
    (s2 : EnumSt T), Loops s k os s2 → s2.idxStack = [] → s2.curSet = [] →
    (∀ o ∈ os, o ≠ []) → k < 4 ^ (s.set.length + 2) → ∀ cf, os.length < cf →
    enumRunAux cf s = .ok os := by
  intro os
  induction os with
  | nil =>
    intro s k s2 h hstack hcur _ hk cf hcf
    obtain ⟨cf2, rfl⟩ : ∃ c, cf = c + 1 := ⟨cf - 1, by omega⟩
    simp only [enumRunAux]
    unfold next
    rw [loops_terminal_next h rfl hstack (4 ^ (s.set.length + 2)) hk]
    rw [hcur]
  | cons o os ih =>
    intro s k s2 h hstack hcur hne hk cf hcf
    obtain ⟨cf2, rfl⟩ : ∃ c, cf = c + 1 := ⟨cf - 1, by omega⟩
    obtain ⟨s1, k1, hnext, hloops, hk1⟩ :=
      loops_yield_extract h o os rfl _ hk
    simp only [enumRunAux]
    unfold next
    rw [hnext]
    obtain ⟨oh, ot, rfl⟩ : ∃ a b, o = a :: b := by
      cases o with
      | nil => exact absurd rfl (hne [] (by simp))
      | cons a b => exact ⟨a, b, rfl⟩
    dsimp only
    have hpres1 : s1.set = s.set := by
      have hA := (loops_preserves h).1
      have hB := (loops_preserves hloops).1
      rw [← hA, hB]
    rw [ih s1 k1 s2 hloops hstack hcur (fun a ha => hne a (by simp [ha]))
      (by rw [hpres1]; omega) cf2 (by simpa using hcf)]

/-- Core simulation: starting at the state about to explore the subtree of
decisions `ds`, the loop yields exactly the canonical combinations of the
remaining suffix (each prefixed by the current partial combination) and
ends having popped the subtree, within `4 ^ (n - |ds| + 1)` iterations. -/
theorem loops_subtree {T : Type} (set : List T) (m : Nat) :
    ∀ (r : Nat) (ds : List Bool), r = set.length - ds.length →
    ds.length ≤ set.length → (chosen ds set).length ≤ m →
    m ≤ (chosen ds set).length + (set.length - ds.length) →
    ∃ k, k ≤ 4 ^ (set.length - ds.length + 1) ∧
      Loops (DescSt set m ds) k
        ((combs (m - (chosen ds set).length) (set.drop ds.length)).map
          (fun c => chosen ds set ++ c))
        (PostSt set m ds) := by
  intro r
  induction r using Nat.strong_induction_on with
  | _ r ih =>
    intro ds hr hds hw1 hw2
    by_cases hfull : (chosen ds set).length < m
    · -- the partial combination is short: descend into the include branch
      have hidx : ds.length < set.length := by omega
      have hx : set[ds.length]? = some set[ds.length] :=
        List.getElem?_eq_getElem hidx
      have hstep1 := stepE_desc_step set m ds set[ds.length] hx hfull
      have hansw : chosen (ds ++ [true]) set = chosen ds set ++ [set[ds.length]] :=
        chosen_concat_true ds set set[ds.length] hx
      have hlen1 : (ds ++ [true]).length = ds.length + 1 := by simp
      have hwlen1 : (chosen (ds ++ [true]) set).length =
          (chosen ds set).length + 1 := by
        rw [hansw]
        simp
      obtain ⟨k1, hk1, hloop1⟩ := ih (set.length - (ds.length + 1)) (by omega)
        (ds ++ [true]) (by rw [hlen1]) (by omega) (by omega) (by omega)
      rw [hlen1] at hk1
      rw [hlen1, hansw] at hloop1
      obtain ⟨q, hq⟩ : ∃ q, m - (chosen ds set).length = q + 1 :=
        ⟨m - (chosen ds set).length - 1, by omega⟩
      have hq2 : m - (chosen ds set ++ [set[ds.length]]).length = q := by
        simp only [List.length_append, List.length_cons, List.length_nil]
        omega
      rw [hq2] at hloop1
      have hb1 : 4 ^ (set.length - (ds.length + 1) + 1) * 4 =
          4 ^ (set.length - ds.length + 1) := by
        rw [← Nat.pow_succ]
        congr 1
        omega
      have hfour : 4 ≤ 4 ^ (set.length - (ds.length + 1) + 1) :=
        Nat.le_self_pow (by omega) 4
      by_cases hcond : ds.length + (m - (chosen ds set).length) < set.length
      · -- the exclude branch is feasible and is explored next
        have hstep2 := stepE_post_true_feasible set m ds set[ds.length] hx
          (by omega) hcond
        have hansw2 : chosen (ds ++ [false]) set = chosen ds set :=
          chosen_concat_false ds set
        have hlen2 : (ds ++ [false]).length = ds.length + 1 := by simp
        have hwlen2 : (chosen (ds ++ [false]) set).length =
            (chosen ds set).length := by
          rw [hansw2]
        obtain ⟨k2, hk2, hloop2⟩ := ih (set.length - (ds.length + 1)) (by omega)
          (ds ++ [false]) (by rw [hlen2]) (by omega) (by omega) (by omega)
        rw [hlen2] at hk2
        rw [hlen2, hansw2] at hloop2
        rw [hq] at hloop2
        have hstep3 := stepE_post_false set m ds (by omega)
        have tail3 : Loops (PostSt set m (ds ++ [false])) 1 [] (PostSt set m ds) :=
          Loops.more _ _ _ 0 [] hstep3 (Loops.refl _)
        have B2 := loops_trans hloop2 tail3
        have mid := Loops.more _ _ _ _ _ hstep2 B2
        have A2 := loops_trans hloop1 mid
        have total := Loops.more _ _ _ _ _ hstep1 A2
        refine ⟨k1 + (k2 + 1 + 1) + 1, by omega, ?_⟩
        rw [hq, List.drop_eq_getElem_cons hidx]
        simp only [combs]
        rw [List.map_append, List.map_map]
        have hcomp : (combs q (set.drop (ds.length + 1))).map
            ((fun c => chosen ds set ++ c) ∘ (fun c => set[ds.length] :: c)) =
            (combs q (set.drop (ds.length + 1))).map
              (fun c => (chosen ds set ++ [set[ds.length]]) ++ c) := by
          apply List.map_congr_left
          intro c _
          simp
        rw [hcomp]
        simp only [List.append_nil] at total
        exact total
      · -- the exclude branch is infeasible: pop back to the parent
        have hstep2 := stepE_post_true_infeasible set m ds set[ds.length] hx
          (by omega) (by omega) hcond
        have tail : Loops (PostSt set m (ds ++ [true])) 1 [] (PostSt set m ds) :=
          Loops.more _ _ _ 0 [] hstep2 (Loops.refl _)
        have A2 := loops_trans hloop1 tail
        have total := Loops.more _ _ _ _ _ hstep1 A2
        refine ⟨k1 + 1 + 1, by omega, ?_⟩
        rw [hq, List.drop_eq_getElem_cons hidx]
        simp only [combs]
        rw [combs_eq_nil_of_lt (set.drop (ds.length + 1)) (q + 1)
          (by rw [List.length_drop]; omega)]
        rw [List.append_nil, List.map_map]
        have hcomp : (combs q (set.drop (ds.length + 1))).map
            ((fun c => chosen ds set ++ c) ∘ (fun c => set[ds.length] :: c)) =
            (combs q (set.drop (ds.length + 1))).map
              (fun c => (chosen ds set ++ [set[ds.length]]) ++ c) := by
          apply List.map_congr_left
          intro c _
          simp
        rw [hcomp]
        simp only [List.append_nil] at total
        exact total
    · -- the partial combination is complete: yield it and pop
      have hstep := stepE_desc_yield set m ds hds hfull
      have h0 : m - (chosen ds set).length = 0 := by omega
      rw [h0]
      refine ⟨1, Nat.one_le_pow _ _ (by omega), ?_⟩
      have hout : ((combs 0 (set.drop ds.length)).map
          (fun c => chosen ds set ++ c)) = [chosen ds set] := by
        simp [combs]
      rw [hout]
      exact Loops.yield _ _ _ 0 _ [] hstep (Loops.refl _)

/-- Complete protocol correctness for the step enumerator: `first(m)`
followed by `next()` until an empty result yields exactly the canonical
combination list, for `1 ≤ m ≤ n`, independent of any prior enumerator
state. -/
theorem enumRunFrom_spec {T : Type} (st : EnumSt T) (m : Nat) (h1 : 1 ≤ m)
    (h2 : m ≤ st.set.length) : enumRunFrom st m = .ok (combs m st.set) := by
  obtain ⟨k, hk, hloop⟩ := loops_subtree st.set m st.set.length []
    (by simp) (by simp) (by simp [chosen]) (by simpa [chosen] using h2)
  have hchosen : chosen ([] : List Bool) st.set = [] := rfl
  rw [hchosen] at hloop
  simp only [List.length_nil, Nat.sub_zero, List.drop_zero, List.nil_append]
    at hloop hk
  have hmapid : (combs m st.set).map (fun c => c) = combs m st.set :=
    List.map_id' _
  rw [hmapid] at hloop
  have hlen : (combs m st.set).length = Nat.choose st.set.length m :=
    combs_length st.set m
  have hpos : 0 < (combs m st.set).length := by
    rw [hlen]
    exact Nat.choose_pos h2
  obtain ⟨c0, rest, hcombs⟩ : ∃ a b, combs m st.set = a :: b := by
    cases hc : combs m st.set with
    | nil => rw [hc] at hpos; simp at hpos
    | cons a b => exact ⟨a, b, rfl⟩
  rw [hcombs] at hloop
  have hp : (4:Nat) ^ (st.set.length + 2) = 4 ^ (st.set.length + 1) * 4 := by
    rw [Nat.pow_succ]
  have hcp : 1 ≤ 4 ^ st.set.length := Nat.one_le_pow _ _ (by omega)
  have hp1 : (4:Nat) ^ (st.set.length + 1) = 4 ^ st.set.length * 4 := by
    rw [Nat.pow_succ]
  obtain ⟨s1, k1, hnext, hloops1, hk1⟩ :=
    loops_yield_extract hloop c0 rest rfl (4 ^ (st.set.length + 2)) (by omega)
  unfold enumRunFrom first
  rw [if_pos (by omega)]
  rw [mkSt_eq_descSt]
  have hnext2 : next (DescSt st.set m []) = .ok (c0, s1) := hnext
  rw [hnext2]
  dsimp only
  have hc0 : c0 ∈ combs m st.set := by rw [hcombs]; simp
  obtain ⟨ch, ct, rfl⟩ : ∃ a b, c0 = a :: b := by
    have := combs_mem_length st.set m c0 hc0
    cases c0 with
    | nil => simp at this; omega
    | cons a b => exact ⟨a, b, rfl⟩
  dsimp only
  have hpres : s1.set = st.set := by
    have hB := (loops_preserves hloops1).1
    simp only [PostSt] at hB
    exact hB.symm
  have hrun : enumRunAux (Nat.choose st.set.length m + 1) s1 = .ok rest := by
    apply loops_run rest s1 k1 (PostSt st.set m []) hloops1 rfl rfl
    · intro o ho hnil
      have homem : o ∈ combs m st.set := by rw [hcombs]; simp [ho]
      have hol := combs_mem_length st.set m o homem
      rw [hnil] at hol
      simp at hol
      omega
    · rw [hpres]
      omega
    · have : rest.length + 1 = Nat.choose st.set.length m := by
        rw [← hlen, hcombs]
        simp
      omega
  rw [hrun]
  dsimp only
  rw [hcombs]

theorem enumRun_spec {T : Type} (set : List T) (m : Nat) (h1 : 1 ≤ m)
    (h2 : m ≤ set.length) : enumRun set m = .ok (combs m set) :=
  enumRunFrom_spec (mkSt set m) m h1 h2

/-- With `m = 0`, `first` returns the empty combination at once, so the
collected sequence of nonempty results is empty. -/
theorem enumRun_zero {T : Type} (set : List T) : enumRun set 0 = .ok [] := by
  unfold enumRun enumRunFrom first
  rw [if_neg (by simp)]

/-- Exhaustion is an idempotent terminal state: once the position stack is
empty, `next()` returns `_curSet` (empty on reachable states) and leaves
the state untouched. -/
theorem next_exhausted {T : Type} (st : EnumSt T) (h1 : st.idxStack = []) :
    next st = .ok (st.curSet, st) := by
  unfold next
  have hstep : stepE st = .stop st.curSet := by
    unfold stepE
    rw [h1]
  obtain ⟨f, hf⟩ : ∃ f, 4 ^ (st.set.length + 2) = f + 1 :=
    ⟨4 ^ (st.set.length + 2) - 1, by
      have := Nat.one_le_pow (st.set.length + 2) 4 (by omega)
      omega⟩
  rw [hf]
  simp only [nextF, hstep]

/-- C1 (amended): for every base sequence and every m with 1 ≤ m ≤ n and
C(n,m) representable, the ordered list materialized by
`Generator.generate(m)`, the sequence of nonempty results of
`Enumerator.first(m)`/`next()`, and the values `Lexor.get(i)` for
i = 0..C(n,m)-1 are all equal to the canonical list `combs m set`, whose
length is `Counter.count(n,m)`; the underlying index tuples are strictly
increasing and listed in lexicographic order.  (The original claim also
covered m = 0, where the enumerator protocol yields no nonempty result;
see the counterexample.) -/
theorem claim1_components_agree {T : Type} (set : List T) (m : Nat)
    (h1 : 1 ≤ m) (h2 : m ≤ set.length) (hW : set.length < WORD)
    (h3 : Nat.choose set.length m < WORD) :
    generate set m = .ok (combs m set) ∧
    enumRun set m = .ok (combs m set) ∧
    lexSeq set m (Nat.choose set.length m) = .ok (combs m set) ∧
    (combs m set).length = Nat.choose set.length m ∧
    countFresh set.length m = .ok (Nat.choose set.length m) ∧
    combs m set = (combs m (List.range set.length)).map
      (fun I => I.filterMap (fun j => set[j]?)) ∧
    List.Pairwise (List.Lex (fun a b : Nat => a < b))
      (combs m (List.range set.length)) ∧
    (∀ c ∈ combs m (List.range set.length),
      List.Pairwise (fun a b : Nat => a < b) c) := by
  refine ⟨generate_spec set m h2 hW h3, enumRun_spec set m h1 h2,
    lexSeq_spec set m h2 hW h3, combs_length set m,
    countFresh_spec h2 hW h3, (combs_idx set m).symm, ?_, ?_⟩
  · exact combs_pairwise_lex (List.range set.length) m
      (List.sorted_lt_range set.length)
  · intro c hc
    exact combs_pairwise_lt (List.range set.length) m c
      (List.sorted_lt_range set.length) hc

/-- C1 counterexample: at n = 1, m = 0 the generator materializes the
single empty combination and the count is 1, but the enumerator protocol
(first, then next while nonempty) produces no nonempty result, so the
three sequences are not identical with length Counter.count(n,0). -/
theorem claim1_counterexample :
    generate ([0] : List Nat) 0 = .ok [[]] ∧
    enumRun ([0] : List Nat) 0 = .ok [] ∧
    countFresh 1 0 = .ok 1 ∧
    ([] : List (List Nat)) ≠ [[]] := by
  refine ⟨generate_zero [0], enumRun_zero [0], ?_, by simp⟩
  unfold countFresh
  rw [countRec_m_zero]
  rfl

/-- Witness for C1 at the spec's concrete scenario: base {0,1,2,3}, m=2. -/
theorem claim1_components_agree_witness :
    ((1 ≤ 2 ∧ 2 ≤ List.length [0, 1, 2, 3] ∧
      List.length [0, 1, 2, 3] < WORD ∧
      Nat.choose (List.length [0, 1, 2, 3]) 2 < WORD)) ∧
    enumRun ([0, 1, 2, 3] : List Nat) 2 =
      .ok [[0, 1], [0, 2], [0, 3], [1, 2], [1, 3], [2, 3]] := by
  refine ⟨⟨by decide, by decide, by decide, by decide⟩, ?_⟩
  rw [(claim1_components_agree [0, 1, 2, 3] 2 (by decide) (by decide)
    (by decide) (by decide)).2.1]
  rfl

/-- C2: for m ≤ n < WORD, `Counter.count(n,m)` equals the binomial
coefficient whenever it is representable, and `count(n,m)` and
`count(n,n-m)` run the same computation. -/
theorem claim2_count_eq_choose (n m : Nat) (h1 : m ≤ n) (h2 : n < WORD) :
    (Nat.choose n m < WORD → countFresh n m = .ok (Nat.choose n m)) ∧
    countFresh n m = countFresh n (n - m) := by
  constructor
  · exact fun h3 => countFresh_spec h1 h2 h3
  · unfold countFresh countRec
    rw [countRecF_symm (3 * WORD) [] h1]

theorem claim2_count_eq_choose_witness :
    ((2 ≤ 5 ∧ 5 < WORD)) ∧ countFresh 5 2 = .ok 10 ∧
    countFresh 5 2 = countFresh 5 (5 - 2) := by
  refine ⟨⟨by decide, by decide⟩, ?_, (claim2_count_eq_choose 5 2 (by decide)
    (by decide)).2⟩
  have h := (claim2_count_eq_choose 5 2 (by decide) (by decide)).1 (by decide)
  rw [(by decide : Nat.choose 5 2 = 10)] at h
  exact h

/-- C3: the counter fails with the overflow error exactly when the true
binomial coefficient does not fit in the counter's word, and the check
`cnt < (cnt0 | cnt1)` on the wrapped sum holds if and only if the
addition overflowed. -/
theorem claim3_overflow_detection (n m a b : Nat) (h1 : m ≤ n) (h2 : n < WORD)
    (h3 : a < WORD) (h4 : b < WORD) :
    (countFresh n m = .error .overflow ↔ WORD ≤ Nat.choose n m) ∧
    (((a + b) % WORD < (a ||| b)) ↔ WORD ≤ a + b) := by
  constructor
  · constructor
    · intro herr
      by_contra hlt
      push_neg at hlt
      rw [countFresh_spec h1 h2 hlt] at herr
      simp at herr
    · exact countFresh_overflow h1 h2
  · constructor
    · intro hcheck
      by_contra hno
      push_neg at hno
      rw [Nat.mod_eq_of_lt hno] at hcheck
      have := or_le_add a b
      omega
    · intro hov
      have hmod : (a + b) % WORD = a + b - WORD := by
        rw [Nat.mod_eq_sub_mod hov]
        exact Nat.mod_eq_of_lt (by omega)
      rw [hmod]
      have := le_or_left a b
      omega

theorem claim3_overflow_detection_witness :
    ((2 ≤ 5 ∧ 5 < WORD ∧ WORD - 1 < WORD ∧ 2 < WORD)) ∧
    ((countFresh 5 2 = .error .overflow ↔ WORD ≤ Nat.choose 5 2) ∧
      (((WORD - 1 + 2) % WORD < ((WORD - 1) ||| 2)) ↔ WORD ≤ WORD - 1 + 2)) :=
  ⟨⟨by decide, by decide, by decide, by decide⟩,
    claim3_overflow_detection 5 2 (WORD - 1) 2 (by decide) (by decide)
      (by decide) (by decide)⟩

/-- C4: contrary to the claim, requesting m greater than n does not yield
an empty result without error: the counter's unsigned normalization wraps
and `count(1,2)` raises the overflow error, and both the generator and
the enumerator read the base vector out of bounds (UB) on such requests. -/
theorem claim4_m_gt_n_fails :
    countFresh 1 2 = .error .overflow ∧
    generate ([] : List Nat) 1 = .error .oob ∧
    first (mkSt ([] : List Nat) 1) 1 = .error .oob ∧
    first (mkSt ([0] : List Nat) 2) 2 = .error .oob :=
  ⟨countFresh_one_two, rfl, rfl, rfl⟩

/-- C5: for a valid pair m ≤ n with representable count, `Lexor.get(i)`
returns the empty sequence exactly for the out-of-range ranks i ≥ C(n,m)
(including i = C(n,m)) without raising an error, returns the unique
rank-i canonical combination for i < C(n,m), and in both cases leaves the
indexer's memo in a valid state, so it stays usable. -/
theorem claim5_lexor_rank_bounds {T : Type} (set : List T) (m i : Nat)
    (memo : Memo) (hg : GoodMemo memo) (h1 : m ≤ set.length)
    (h2 : set.length < WORD) (h3 : Nat.choose set.length m < WORD) :
    (Nat.choose set.length m ≤ i →
      ∃ memo2, lexGet set m i memo = .ok ([], memo2) ∧ GoodMemo memo2) ∧
    (i < Nat.choose set.length m →
      ∃ c memo2, lexGet set m i memo = .ok (c, memo2) ∧
        (combs m set)[i]? = some c ∧ GoodMemo memo2) :=
  ⟨(lexGet_spec set m i memo hg h1 h2 h3).2,
    (lexGet_spec set m i memo hg h1 h2 h3).1⟩

theorem claim5_lexor_rank_bounds_witness :
    ((2 ≤ List.length [0, 1, 2, 3] ∧ List.length [0, 1, 2, 3] < WORD ∧
      Nat.choose (List.length [0, 1, 2, 3]) 2 < WORD)) ∧
    ((Nat.choose (List.length [0, 1, 2, 3]) 2 ≤ 6 →
      ∃ memo2, lexGet ([0, 1, 2, 3] : List Nat) 2 6 [] = .ok ([], memo2) ∧
        GoodMemo memo2) ∧
    (6 < Nat.choose (List.length [0, 1, 2, 3]) 2 →
      ∃ c memo2, lexGet ([0, 1, 2, 3] : List Nat) 2 6 [] = .ok (c, memo2) ∧
        (combs 2 [0, 1, 2, 3])[6]? = some c ∧ GoodMemo memo2)) :=
  ⟨⟨by decide, by decide, by decide⟩,
    claim5_lexor_rank_bounds [0, 1, 2, 3] 2 6 [] goodMemo_nil (by decide)
      (by decide) (by decide)⟩

/-- C6: an overflow raised by the counter propagates unchanged through
every component that calls it: through `Generator.generate` during its
pre-sizing `reserve` call, through `Lexor.get` during rank validation,
and through the decision rule of the recursive `Lexor.get`; none of them
absorbs it into a normal empty result. -/
theorem claim6_overflow_propagation {T : Type} (set : List T) (m i : Nat)
    (memo : Memo) (e : Err) :
    (countRec [] set.length m = .error e → generate set m = .error e) ∧
    (countRec memo set.length m = .error e → lexGet set m i memo = .error e) ∧
    (∀ (fuel n2 m2 i2 nel : Nat) (r : List T), 0 < m2 →
      countRec memo (wsub n2 1) (wsub m2 1) = .error e →
      lexGetRecF set (fuel + 1) memo n2 m2 i2 nel r = .error e) :=
  ⟨generate_overflow set m e, lexGet_overflow set m i memo e,
    fun fuel n2 m2 i2 nel r hm h =>
      lexGetRecF_overflow set fuel memo n2 m2 i2 nel r e hm h⟩

theorem claim6_overflow_propagation_witness :
    generate ([0] : List Nat) 2 = .error .overflow ∧
    lexGet ([0] : List Nat) 2 0 [] = .error .overflow :=
  ⟨(claim6_overflow_propagation [0] 2 0 [] .overflow).1 countRec_one_two,
    (claim6_overflow_propagation [0] 2 0 [] .overflow).2.1 countRec_one_two⟩

/-- C7: once the traversal is exhausted (empty position stack, empty
partial combination) every further `next()` returns the empty sequence
and leaves the state untouched; `first(m)` installs a state depending
only on the base sequence, so it fully resets the enumerator; and after
`first(m)` on any prior state the protocol reproduces the complete
sequence for 1 ≤ m ≤ n. -/
theorem claim7_exhaustion_and_reset {T : Type} :
    (∀ st : EnumSt T, st.idxStack = [] → st.curSet = [] →
      next st = .ok ([], st)) ∧
    (∀ (st : EnumSt T) (m2 : Nat), first st m2 = first (mkSt st.set m2) m2) ∧
    (∀ (st : EnumSt T) (m2 : Nat), 1 ≤ m2 → m2 ≤ st.set.length →
      enumRunFrom st m2 = .ok (combs m2 st.set)) := by
  refine ⟨?_, ?_, ?_⟩
  · intro st hstack hcur
    rw [next_exhausted st hstack, hcur]
  · intro st m2
    rfl
  · intro st m2 h1 h2
    exact enumRunFrom_spec st m2 h1 h2

theorem claim7_exhaustion_and_reset_witness :
    next (⟨[0], 1, [], [], [0, 0]⟩ : EnumSt Nat) =
      .ok ([], (⟨[0], 1, [], [], [0, 0]⟩ : EnumSt Nat)) ∧
    enumRunFrom (⟨[0], 5, [0], [3], [9]⟩ : EnumSt Nat) 1 = .ok [[0]] := by
  refine ⟨(@claim7_exhaustion_and_reset Nat).1 _ rfl rfl, ?_⟩
  rw [(@claim7_exhaustion_and_reset Nat).2.2 ⟨[0], 5, [0], [3], [9]⟩ 1
    (by decide) (by decide)]
  rfl

/-- C8: with m = 0 every component yields exactly the empty combination
once: `first(0)` returns it immediately with freshly reset state,
`generate(0)` materializes the single empty combination,
`count(n,0) = 1`, and `Lexor.get(0)` with m = 0 returns the empty
combination. -/
theorem claim8_m_zero_single_empty {T : Type} (set : List T) :
    first (mkSt set 0) 0 = .ok ([], mkSt set 0) ∧
    generate set 0 = .ok [[]] ∧
    countFresh set.length 0 = .ok 1 ∧
    lexGet set 0 0 [] = .ok ([], []) := by
  refine ⟨?_, generate_zero set, ?_, lexGet_zero set []⟩
  · unfold first
    rw [if_neg (by simp)]
    rfl
  · unfold countFresh
    rw [countRec_m_zero]
    rfl

/-- C9: under the precondition m ≤ n all indexing performed by the
generator recursion and by the full enumerator protocol stays in bounds:
both complete without the out-of-bounds error (their only possible
error). -/
theorem claim9_traversal_in_bounds {T : Type} (set : List T) (m : Nat)
    (h : m ≤ set.length) :
    (∃ r, genCombs set m = .ok r) ∧ (∃ r, enumRun set m = .ok r) := by
  constructor
  · exact ⟨_, genCombs_spec set m h⟩
  · rcases Nat.eq_zero_or_pos m with h0 | h0
    · subst h0
      exact ⟨[], enumRun_zero set⟩
    · exact ⟨_, enumRun_spec set m h0 h⟩

theorem claim9_traversal_in_bounds_witness :
    (2 ≤ List.length [0, 1, 2]) ∧
    ((∃ r, genCombs ([0, 1, 2] : List Nat) 2 = .ok r) ∧
      (∃ r, enumRun ([0, 1, 2] : List Nat) 2 = .ok r)) :=
  ⟨by decide, claim9_traversal_in_bounds [0, 1, 2] 2 (by decide)⟩

/-- C10: on the valid domain m ≤ n < WORD the counter recursion
terminates within depth n (fuel n + 1 reproduces the unbounded
computation), because each recursive call decreases n by one while the
normalized m stays at most n; the precondition is necessary: on (n,m) =
(1,2) the unsigned normalization wraps and depth n + 1 = 2 is already
exhausted without reaching a base case. -/
theorem claim10_count_terminates :
    (∀ (fuel : Nat) (memo : Memo) (n m : Nat), m ≤ n → n < WORD →
      n + 1 ≤ fuel → countRecF fuel memo n m = countRec memo n m) ∧
    countRecF 2 [] 1 2 = .error .fuel := by
  constructor
  · intro fuel memo n m h1 h2 h3
    unfold countRec
    exact countRecF_fuel_irrel n fuel (3 * WORD) m memo h1 h3
      (by have := four_le_WORD; omega)
  · rfl

theorem claim10_count_terminates_witness :
    ((2 ≤ 5 ∧ 5 < WORD ∧ 5 + 1 ≤ 6)) ∧
    countRecF 6 [] 5 2 = countRec [] 5 2 :=
  ⟨⟨by decide, by decide, by decide⟩,
    claim10_count_terminates.1 6 [] 5 2 (by decide) (by decide) (by decide)⟩
